import Mathlib

/-!
# Verification of the pr-doc-watch-action link pipeline

A shallow embedding of the GitHub action that scans changed files for links
inside source-code comments, classifies them, validates them, decides which
report variant applies, and renders a template.

Strings are modelled as lists of characters (`List Char`); the JavaScript
regular-expression scans are embedded as executable character-level scanners
with the same matching semantics (leftmost match, greedy repetition,
non-overlapping global scan).  Only the ASCII part of the JS `\s` class is
modelled, which covers all inputs considered here.
-/

namespace DocWatch

/-- ASCII whitespace, modelling the JS `\s` character class. -/
def jsSpace (c : Char) : Bool :=
  c = ' ' || c = '\t' || c = '\n' || c = '\r' || c = Char.ofNat 11 || c = Char.ofNat 12

/-- JS line terminators relevant to the `m`-mode anchors and to `.`:
newline and carriage return. -/
def lineBreak (c : Char) : Bool :=
  c = '\n' || c = '\r'

/-- The character class excluded by both URL patterns in `check-links.ts`:
`[^\s<>"'{}|\\^`[\]]` (a token run stops at whitespace or one of these
delimiters). -/
def urlStop (c : Char) : Bool :=
  jsSpace c || c = '<' || c = '>' || c = '"' || c = Char.ofNat 39 ||
  c = Char.ofNat 123 || c = Char.ofNat 125 || c = '|' || c = '\\' ||
  c = '^' || c = Char.ofNat 96 || c = '[' || c = ']'

/-- JS `String.prototype.trim`: drop whitespace from both ends. -/
def jsTrim (l : List Char) : List Char :=
  ((l.dropWhile jsSpace).reverse.dropWhile jsSpace).reverse

/-- `s` begins with the literal character sequence `p`. -/
def leadsWith (p s : List Char) : Bool :=
  s.take p.length == p

def httpLead : List Char := "http://".toList

def httpsLead : List Char := "https://".toList

/-- One attempted match of `ABSOLUTE_URL_PATTERN` (`https?:\/\/[^\s<>"'{}|\\^`[\]]+`)
anchored at the start of `s`; returns the token and the remaining input. -/
def matchAbsAt (s : List Char) : Option (List Char × List Char) :=
  if leadsWith httpsLead s then
    let body := (s.drop 8).takeWhile (fun c => !urlStop c)
    if body.isEmpty then none
    else some (httpsLead ++ body, (s.drop 8).drop body.length)
  else if leadsWith httpLead s then
    let body := (s.drop 7).takeWhile (fun c => !urlStop c)
    if body.isEmpty then none
    else some (httpLead ++ body, (s.drop 7).drop body.length)
  else none

/-- One attempted match of `RELATIVE_PATH_PATTERN` (`(?:\.\.?\/|\/)[^\s<>"'{}|\\^`[\]]+`)
anchored at the start of `s`.  The alternation is tried the way the JS engine
does: `../` before `./` before `/`, and each requires at least one body
character afterwards. -/
def matchRelAt (s : List Char) : Option (List Char × List Char) :=
  match s with
  | '.' :: '.' :: '/' :: rest =>
    let body := rest.takeWhile (fun c => !urlStop c)
    if body.isEmpty then none
    else some ('.' :: '.' :: '/' :: body, rest.drop body.length)
  | '.' :: '/' :: rest =>
    let body := rest.takeWhile (fun c => !urlStop c)
    if body.isEmpty then none
    else some ('.' :: '/' :: body, rest.drop body.length)
  | '/' :: rest =>
    let body := rest.takeWhile (fun c => !urlStop c)
    if body.isEmpty then none
    else some ('/' :: body, rest.drop body.length)
  | _ => none

/-- Global (`g`-flag) scan: find all non-overlapping matches left to right,
advancing one character after a failed attempt.  `fuel` bounds the number of
steps; every step consumes at least one character, so `s.length` is enough. -/
def scanTokensF (matchAt : List Char → Option (List Char × List Char)) :
    Nat → List Char → List (List Char)
  | 0, _ => []
  | _ + 1, [] => []
  | fuel + 1, c :: rest =>
    match matchAt (c :: rest) with
    | some (tok, rest2) => tok :: scanTokensF matchAt fuel rest2
    | none => scanTokensF matchAt fuel (rest : List Char)

/-- `cleanComment.match(ABSOLUTE_URL_PATTERN)` in `extractLinks`. -/
def scanAbs (s : List Char) : List (List Char) :=
  scanTokensF matchAbsAt s.length s

/-- `cleanComment.match(RELATIVE_PATH_PATTERN)` in `extractLinks`. -/
def scanRel (s : List Char) : List (List Char) :=
  scanTokensF matchRelAt s.length s

/-- `s.replace(/^p/, "")`: strip `p` once from the front when present. -/
def stripLead (p s : List Char) : List Char :=
  if leadsWith p s then s.drop p.length else s

/-- `s.replace(/p$/, "")`: strip `p` once from the end when present. -/
def stripTrail (p s : List Char) : List Char :=
  (stripLead p.reverse s.reverse).reverse

/-- The `cleanComment` chain of `extractLinks` in `check-links.ts`: strip a
leading `//`, a leading `/*` and trailing `*/`, a leading `#`, a leading `--`,
a leading `<!--`, and a trailing `-->`, in that order. -/
def cleanComment (s : List Char) : List Char :=
  stripTrail ("-->".toList)
    (stripLead ("<!--".toList)
      (stripLead ("--".toList)
        (stripLead ("#".toList)
          (stripTrail ("*/".toList)
            (stripLead ("/*".toList)
              (stripLead ("//".toList) s))))))

/-- `Set.add` on an insertion-ordered set represented as a duplicate-free list:
a later duplicate is a no-op, a new element is appended. -/
def insertLink (acc : List (List Char)) (x : List Char) : List (List Char) :=
  if x ∈ acc then acc else acc ++ [x]

/-- The body of the `for (const comment of comments)` loop of `extractLinks`:
strip residual comment delimiters, then add the absolute-URL matches and the
relative-path matches, trimmed, to the set. -/
def extractStep (acc : List (List Char)) (comment : List Char) : List (List Char) :=
  let clean := cleanComment comment
  let acc1 := (scanAbs clean).foldl (fun a tok => insertLink a (jsTrim tok)) acc
  (scanRel clean).foldl (fun a tok => insertLink a (jsTrim tok)) acc1

/-- `extractLinks` from `check-links.ts`: per comment, strip residual comment
delimiters, collect the absolute-URL matches and then the relative-path
matches, trimming each, into one insertion-ordered set for the whole file. -/
def extractLinks (comments : List (List Char)) : List (List Char) :=
  comments.foldl extractStep []

/-- The stream of trimmed tokens one comment contributes, in discovery order
(absolute matches first, then relative matches, as in the source). -/
def commentMatches (comment : List Char) : List (List Char) :=
  ((scanAbs (cleanComment comment)) ++ (scanRel (cleanComment comment))).map jsTrim

/-- The full discovery stream of one file's comments, before deduplication. -/
def allMatches (comments : List (List Char)) : List (List Char) :=
  (comments.map commentMatches).flatten

/-! ## Comment extraction (`extractComments` and `COMMENT_PATTERNS`) -/

/-- Split on JS line terminators (`\n`, `\r`), the positions at which the
`m`-mode `^` anchor matches and at which `.` stops. -/
def splitLines : List Char → List (List Char)
  | [] => [[]]
  | c :: rest =>
    if lineBreak c then [] :: splitLines rest
    else
      match splitLines rest with
      | [] => [[c]]
      | l :: ls => (c :: l) :: ls

/-- All matches of a single-line pattern `^MARKER(?<url>.*)` with flags `gm`:
the captured group of every line that begins with the marker. -/
def scanLine (marker : List Char) (s : List Char) : List (List Char) :=
  (splitLines s).filterMap (fun line =>
    if leadsWith marker line then some (line.drop marker.length) else none)

/-- Locate the first occurrence of `closer`; returns the text before it and
the text after it (the lazy `[\s\S]*?` body and the continuation point). -/
def findClose (closer : List Char) : List Char → Option (List Char × List Char)
  | [] => none
  | c :: rest =>
    if leadsWith closer (c :: rest) then some ([], (c :: rest).drop closer.length)
    else
      match findClose closer rest with
      | some (body, r) => some (c :: body, r)
      | none => none

/-- All matches of a block pattern `^OPENER(?<url>[\s\S]*?)CLOSER` with flags
`gm`: the opener must sit at a line start, the body runs lazily to the first
closer, and the scan resumes right after the closer.  `atStart` tracks whether
the current position is a line start. -/
def scanBlockF (opener closer : List Char) :
    Nat → Bool → List Char → List (List Char)
  | 0, _, _ => []
  | _ + 1, _, [] => []
  | fuel + 1, atStart, c :: rest =>
    if atStart && leadsWith opener (c :: rest) then
      match findClose closer ((c :: rest).drop opener.length) with
      | some (body, r) => body :: scanBlockF opener closer fuel false r
      | none => scanBlockF opener closer fuel (lineBreak c) rest
    else scanBlockF opener closer fuel (lineBreak c) rest

def scanBlock (opener closer : List Char) (s : List Char) : List (List Char) :=
  scanBlockF opener closer s.length true s

/-- `extractComments` from `check-links.ts`: evaluate the five comment
patterns over the whole content independently, in table order (C single-line,
C block, hash, HTML, SQL), trimming every captured body. -/
def extractComments (content : List Char) : List (List Char) :=
  ((scanLine ("//".toList) content).map jsTrim) ++
  ((scanBlock ("/*".toList) ("*/".toList) content).map jsTrim) ++
  ((scanLine ("#".toList) content).map jsTrim) ++
  ((scanBlock ("<!--".toList) ("-->".toList) content).map jsTrim) ++
  ((scanLine ("--".toList) content).map jsTrim)

/-! ## Classification and per-file scan results -/

inductive LinkType
  | absolute
  | relative
deriving DecidableEq, Repr

structure Link where
  url : String
  type : LinkType
deriving DecidableEq, Repr

structure FileResult where
  filename : String
  links : List Link
deriving DecidableEq, Repr

/-- The classification in `parseFilesForLinks`:
`link.startsWith("http") ? Absolute : Relative`. -/
def classifyLink (l : List Char) : LinkType :=
  if leadsWith ("http".toList) l then .absolute else .relative

/-- `parseFilesForLinks` from `check-links.ts`, with the file-content reads
abstracted into a `reader` capability (`getFileContent` returns `null` on a
read failure, modelled as `none`): files that cannot be read or that yield no
link contribute nothing. -/
def parseFilesForLinks (reader : String → Option String) (files : List String) :
    List FileResult :=
  files.filterMap (fun file =>
    match reader file with
    | none => none
    | some content =>
      let links := extractLinks (extractComments content.toList)
      if links.isEmpty then none
      else some ⟨file, links.map (fun l => ⟨String.mk l, classifyLink l⟩)⟩)

/-! ## POSIX path model (`path.resolve`, `path.dirname`, `path.relative`)

An absolute path is a list of segments from the filesystem root.  The current
working directory `cwd` (the working root of a run) is such a segment list. -/

def splitOnChar (sep : Char) : List Char → List (List Char)
  | [] => [[]]
  | c :: rest =>
    if c = sep then [] :: splitOnChar sep rest
    else
      match splitOnChar sep rest with
      | [] => [[c]]
      | l :: ls => (c :: l) :: ls

/-- Join segments with `/` (the `path.join`-style rendering used when turning
segment lists back into path strings). -/
def joinWith (sep : List Char) : List (List Char) → List Char
  | [] => []
  | [x] => x
  | x :: y :: ys => x ++ sep ++ joinWith sep (y :: ys)

def joinPath (segs : List String) : String :=
  String.mk (joinWith ['/'] (segs.map String.toList))

def splitPath (s : String) : List String :=
  (splitOnChar '/' s.toList).map String.mk

/-- `path.isAbsolute`: the string begins with `/`. -/
def pathAbs (s : String) : Bool :=
  leadsWith ['/'] s.toList

/-- One normalization step: empty and `.` segments vanish, `..` pops the last
segment (clamping at the root), anything else is pushed. -/
def normStep (acc : List String) (seg : String) : List String :=
  if seg = "" ∨ seg = "." then acc
  else if seg = ".." then acc.dropLast
  else acc ++ [seg]

def normalizeAbs (segs : List String) : List String :=
  segs.foldl normStep []

/-- `path.resolve(cwd, p₁, …, pₙ)`: a later absolute component resets the
accumulated path; the concatenation is normalized against the root. -/
def pathResolve (cwd : List String) (ps : List String) : List String :=
  normalizeAbs (ps.foldl (fun acc p => if pathAbs p then splitPath p else acc ++ splitPath p) cwd)

/-- `path.dirname` for the slash-separated relative filenames produced by the
changed-file listing. -/
def dirname (s : String) : String :=
  match (splitPath s).dropLast with
  | [] => "."
  | [""] => "/"
  | ps => joinPath ps

def commonPrefixLen : List String → List String → Nat
  | a :: as, b :: bs => if a = b then commonPrefixLen as bs + 1 else 0
  | _, _ => 0

/-- `path.relative(from, to)` on resolved absolute paths: climb out of the
non-shared part of `from` with `..` segments, then descend into `to`. -/
def pathRelative (fromSegs toSegs : List String) : String :=
  joinPath
    (List.replicate (fromSegs.length - commonPrefixLen fromSegs toSegs) ".." ++
      toSegs.drop (commonPrefixLen fromSegs toSegs))

/-- `path.resolve(process.cwd(), path.dirname(filename), url)`, the resolved
absolute form of a link found in `filename`. -/
def resolveFull (cwd : List String) (filename url : String) : List String :=
  pathResolve cwd [dirname filename, url]

/-- `path.relative(process.cwd(), resolvedPath)`: the root-relative display
and comparison form of a resolved link. -/
def resolveLink (cwd : List String) (filename url : String) : String :=
  pathRelative cwd (resolveFull cwd filename url)

/-! ## Completeness decision (`checkAllLinksUpdated`, `compileTemplateFromLinks`) -/

inductive Template
  | noLinks
  | allUpdated
  | pending
deriving DecidableEq, Repr

/-- The per-link test inside the `checkAllLinksUpdated` loop of
`check-links.ts`: an absolute link disqualifies immediately, a relative link
qualifies exactly when its resolved path is among the resolved changed-file
paths. -/
def linkUpdated (cwd : List String) (changedFilePaths : List (List String))
    (filename : String) (link : Link) : Bool :=
  match link.type with
  | .absolute => false
  | .relative => changedFilePaths.contains (resolveFull cwd filename link.url)

/-- `checkAllLinksUpdated` from `check-links.ts`: an absolute link anywhere
disqualifies the run, and so does a relative link whose resolved path is not
among the resolved changed-file paths. -/
def checkAllLinksUpdated (cwd : List String) (results : List FileResult)
    (changedFiles : List String) : Bool :=
  let changedFilePaths := changedFiles.map (fun f => pathResolve cwd [f])
  results.all (fun result =>
    result.links.all (linkUpdated cwd changedFilePaths result.filename))

/-- The template-name selection inside `compileTemplateFromLinks`:
no results at all → `NoLinks`; otherwise `AllUpdated` exactly when
`checkAllLinksUpdated` holds, else `Pending`. -/
def chosenTemplate (cwd : List String) (results : List FileResult)
    (changedFiles : List String) : Template :=
  if results.isEmpty then .noLinks
  else if checkAllLinksUpdated cwd results changedFiles then .allUpdated
  else .pending

/-- JS `s.replace(pat, rep)` with a plain-string pattern: replace the first
occurrence only ($-escapes in the replacement do not occur in this code's
replacement values and are not modelled). -/
def replaceFirst (s pat rep : List Char) : List Char :=
  if pat.isEmpty then rep ++ s else go s
where
  go : List Char → List Char
    | [] => []
    | c :: rest =>
      if leadsWith pat (c :: rest) then rep ++ (c :: rest).drop pat.length
      else c :: go rest

def replaceFirstS (s pat rep : String) : String :=
  String.mk (replaceFirst s.toList pat.toList rep.toList)

/-- `executeTemplate` from `check-links.ts`, with the template file read
abstracted into `loadTemplate` (`getFileContent` yields `none` on a missing
file, upon which the source throws `Template not found`, modelled as `none`). -/
def executeTemplate (loadTemplate : Template → Option String)
    (templateName : Template) (linkCount : Option Nat) (linksOutput : Option String) :
    Option String :=
  match loadTemplate templateName with
  | none => none
  | some t =>
    some (replaceFirstS
      (replaceFirstS t "\x7b\x7bLINK_COUNT\x7d\x7d" (toString (linkCount.getD 0)))
      "\x7b\x7bLINKS\x7d\x7d" (linksOutput.getD ""))

/-- A literal backtick, kept out of the string literals below. -/
def bt : String := String.mk [Char.ofNat 96]

def linkTypeStr : LinkType → String
  | .absolute => "absolute"
  | .relative => "relative"

/-- The `linksMarkdown` accumulation loop of `compileTemplateFromLinks`. -/
def linksMarkdownFor (owner repo sha : String) (cwd : List String)
    (results : List FileResult) : String :=
  results.foldl (fun md result =>
    let fileUrl := "https://github.com/" ++ owner ++ "/" ++ repo ++ "/blob/" ++ sha
      ++ "/" ++ result.filename
    let fileLink := "[" ++ bt ++ result.filename ++ bt ++ "](" ++ fileUrl ++ ")"
    result.links.foldl (fun md link =>
      let md := md ++ "- " ++ bt ++ link.url ++ bt ++ " (" ++ linkTypeStr link.type ++ ")\n"
      let md :=
        if link.type = .relative then
          let relativePath := resolveLink cwd result.filename link.url
          let resolvedFileUrl := "https://github.com/" ++ owner ++ "/" ++ repo ++ "/blob/"
            ++ sha ++ "/" ++ relativePath
          md ++ "  → [" ++ bt ++ relativePath ++ bt ++ "](" ++ resolvedFileUrl ++ ")\n"
        else md
      md ++ "  Referenced in: " ++ fileLink ++ "\n\n") md) ""

/-- `compileTemplateFromLinks` from `check-links.ts`. -/
def compileTemplateFromLinks (loadTemplate : Template → Option String)
    (owner repo sha : String) (cwd : List String)
    (results : List FileResult) (changedFiles : List String) : Option String :=
  if results.isEmpty then executeTemplate loadTemplate .noLinks none none
  else
    executeTemplate loadTemplate (chosenTemplate cwd results changedFiles)
      (some (results.foldl (fun sum r => sum + r.links.length) 0))
      (some (linksMarkdownFor owner repo sha cwd results))

/-- The completeness rule exactly as the specification words it: no link at
all → `NoLinks`; any absolute link, or any relative link whose resolved path
is outside the changed-file set → `Pending`; otherwise `AllUpdated`. -/
def specVariant (cwd : List String) (results : List FileResult)
    (changedFiles : List String) : Template :=
  if results.all (fun r => r.links.isEmpty) then .noLinks
  else if results.any (fun r => r.links.any (fun l =>
      decide (l.type = LinkType.absolute ∨
        (l.type = LinkType.relative ∧
          resolveFull cwd r.filename l.url ∉
            changedFiles.map (fun f => pathResolve cwd [f]))))) then .pending
  else .allUpdated

/-! ## Link validation (`checkLinkValidity`, from the validating variant) -/

structure LinkStatus where
  valid : Bool
  message : Option String := none
  statusCode : Option Nat := none
  resolvedPath : Option String := none
deriving DecidableEq, Repr

/-- The possible completions of a *constructed* request: an HTTP response, an
`error` event delivered on the request object (connection refused, DNS
failure, …), or the `timeout` event after which the request is destroyed.  A
malformed URL produces no event at all — `client.get` throws before any
request exists (see `RequestOutcome.threw`). -/
inductive ProbeEvent
  | response (statusCode : Nat)
  | networkError (message : String)
  | timeout
deriving DecidableEq, Repr

/-- The two ways `client.get(url, { timeout: 5000 }, …)` can behave: on a
malformed URL (for instance the extractable token `http://a:b:c`, whose port
is not numeric) the URL parse inside `client.get` throws synchronously
(`ERR_INVALID_URL`) before a request exists; otherwise a request is created
and eventually completes with exactly one `ProbeEvent`. -/
inductive RequestOutcome
  | threw (message : String)
  | completed (event : ProbeEvent)
deriving DecidableEq, Repr

/-- The fixed timeout budget passed to `client.get(url, { timeout: 5000 })`. -/
def TIMEOUT_MS : Nat := 5000

/-- `checkLinkValidity`: a relative link is resolved against the directory of
its source file and checked for existence on the filesystem capability.  An
absolute link goes through the `request` capability (which receives the
timeout budget): when request construction throws (malformed URL), the
exception is raised inside the `new Promise` executor, so the returned
promise rejects and the error escapes this function (`Except.error`); every
completion event of a constructed request is turned into a `LinkStatus` value
and resolved as data (`Except.ok`). -/
def checkLinkValidity (fileExists : List String → Bool) (cwd : List String)
    (request : String → Nat → RequestOutcome) (url sourceFile : String) :
    Except String LinkStatus :=
  if leadsWith ("http".toList) url.toList = false then
    let resolved := resolveFull cwd sourceFile url
    let ex := fileExists resolved
    Except.ok
      { valid := ex,
        message := some (if ex then "File exists" else "File not found in repository"),
        resolvedPath := some (pathRelative cwd resolved) }
  else
    match request url TIMEOUT_MS with
    | .threw msg => Except.error msg
    | .completed (.response sc) =>
      if 200 ≤ sc ∧ sc < 400 then Except.ok { valid := true, statusCode := some sc }
      else Except.ok { valid := false, statusCode := some sc }
    | .completed (.networkError msg) => Except.ok { valid := false, message := some msg }
    | .completed .timeout => Except.ok { valid := false, message := some "Timeout" }

/-! ## The validating variant's data and decision (legacy `index` source) -/

structure LinkV where
  url : String
  type : LinkType
  status : LinkStatus
deriving DecidableEq, Repr

structure FileResultV where
  filename : String
  links : List LinkV
deriving DecidableEq, Repr

/-- `checkLinks`: validate each extracted link of one file in order; the
`await` rethrows a rejected validation, so one thrown validation aborts the
whole scan. -/
def checkLinks (fileExists : List String → Bool) (cwd : List String)
    (request : String → Nat → RequestOutcome) (links : List String) (filename : String) :
    Except String (List LinkV) :=
  links.mapM (fun link =>
    (checkLinkValidity fileExists cwd request link filename).map (fun status =>
      { url := link,
        type := if leadsWith ("http".toList) link.toList then .absolute else .relative,
        status := status }))

/-- JS truthiness of an optional string (`undefined` and `""` are falsy). -/
def truthyStr : Option String → Bool
  | none => false
  | some s => s != ""

/-- JS truthiness of an optional number (`undefined` and `0` are falsy). -/
def truthyNat : Option Nat → Bool
  | none => false
  | some n => n != 0

/-- The per-link test inside the validating variant's
`checkAllLinksUpdated` loop: absolute disqualifies; a relative link with a
truthy stored `status.resolvedPath` qualifies exactly when the re-resolved
path is among the resolved changed-file paths. -/
def linkUpdatedV (cwd : List String) (changedFilePaths : List (List String))
    (link : LinkV) : Bool :=
  match link.type with
  | .absolute => false
  | .relative =>
    if truthyStr link.status.resolvedPath then
      changedFilePaths.contains (pathResolve cwd [link.status.resolvedPath.getD ""])
    else true

/-- `checkAllLinksUpdated` of the validating variant: the stored
`status.resolvedPath` (when truthy) is re-resolved and looked up in the
resolved changed-file paths; validity flags are never consulted. -/
def checkAllLinksUpdatedV (cwd : List String) (results : List FileResultV)
    (changedFiles : List String) : Bool :=
  let changedFilePaths := changedFiles.map (fun f => pathResolve cwd [f])
  results.all (fun result =>
    result.links.all (linkUpdatedV cwd changedFilePaths))

/-- The template selection of the validating variant's
`postCommentFromTemplate`. -/
def chooseTemplateV (cwd : List String) (results : List FileResultV)
    (changedFiles : List String) : Template :=
  if results.isEmpty then .noLinks
  else if checkAllLinksUpdatedV cwd results changedFiles then .allUpdated
  else .pending

/-! ## The validating variant's split renderer (broken/valid placeholders) -/

def BROKEN_SENTINEL : String := "No broken links found. ✅\n\n"

def VALID_SENTINEL : String := "No additional links to review.\n\n"

/-- One file's contribution to the broken-links and valid-links markdown of
`postCommentFromTemplate`: the invalid links then the valid links, each block
naming the source file permalink. -/
def sectionStep (owner repo sha : String) (acc : String × String)
    (result : FileResultV) : String × String :=
  let fileUrl := "https://github.com/" ++ owner ++ "/" ++ repo ++ "/blob/" ++ sha
    ++ "/" ++ result.filename
  let fileLink := "[" ++ bt ++ result.filename ++ bt ++ "](" ++ fileUrl ++ ")"
  let invalidLinks := result.links.filter (fun l => l.status.valid = false)
  let validLinks := result.links.filter (fun l => l.status.valid = true)
  let broken := invalidLinks.foldl (fun b link =>
    let b := b ++ "❌ " ++ bt ++ link.url ++ bt ++ " (" ++ linkTypeStr link.type ++ ")\n"
    let b :=
      if link.type = .relative ∧ truthyStr link.status.resolvedPath then
        b ++ "   Resolves to: " ++ bt ++ link.status.resolvedPath.getD "" ++ bt ++ "\n"
      else b
    let b :=
      if truthyNat link.status.statusCode then
        b ++ "   Status: " ++ toString (link.status.statusCode.getD 0) ++ "\n"
      else if truthyStr link.status.message then
        b ++ "   " ++ link.status.message.getD "" ++ "\n"
      else b
    b ++ "   Referenced in: " ++ fileLink ++ "\n\n") acc.1
  let valid := validLinks.foldl (fun v link =>
    let v := v ++ "- " ++ bt ++ link.url ++ bt ++ " (" ++ linkTypeStr link.type ++ ")\n"
    let v :=
      if link.type = .relative ∧ truthyStr link.status.resolvedPath then
        let rp := link.status.resolvedPath.getD ""
        v ++ "  → [" ++ bt ++ rp ++ bt ++ "](https://github.com/" ++ owner ++ "/"
          ++ repo ++ "/blob/" ++ sha ++ "/" ++ rp ++ ")\n"
      else v
    v ++ "  Referenced in: " ++ fileLink ++ "\n\n") acc.2
  (broken, valid)

/-- The broken-links and valid-links markdown accumulation of
`postCommentFromTemplate`. -/
def buildLinkSections (owner repo sha : String) (results : List FileResultV) :
    String × String :=
  results.foldl (sectionStep owner repo sha) ("", "")

/-- The placeholder substitution of `postCommentFromTemplate` for the split
(`comment-template.md`) shape: an empty broken or valid section is replaced by
its human-readable sentinel before the three placeholders are substituted. -/
def renderSplitTemplate (owner repo sha : String) (template : String)
    (results : List FileResultV) : String :=
  let sections := buildLinkSections owner repo sha results
  let broken := if sections.1 = "" then BROKEN_SENTINEL else sections.1
  let valid := if sections.2 = "" then VALID_SENTINEL else sections.2
  let totalLinks := results.foldl (fun sum r => sum + r.links.length) 0
  replaceFirstS
    (replaceFirstS
      (replaceFirstS template "\x7b\x7bLINK_COUNT\x7d\x7d" (toString totalLinks))
      "\x7b\x7bBROKEN_LINKS\x7d\x7d" broken)
    "\x7b\x7bVALID_LINKS\x7d\x7d" valid

/-- `pat` occurs as a contiguous block somewhere in the string. -/
def occursIn (pat : List Char) : List Char → Bool
  | [] => pat.isEmpty
  | c :: rest => leadsWith pat (c :: rest) || occursIn pat rest

/-- A well-formed working-directory segment: nonempty, not a dot entry, and
free of separators (what `process.cwd()` always yields after splitting). -/
def wfSeg (s : String) : Bool :=
  s != "" && s != "." && s != ".." && !(s.toList.contains '/')

def wfCwd (cwd : List String) : Bool :=
  cwd.all wfSeg

/-- The relative segment sequence never climbs above its starting depth `d`
(so `..` entries are resolved inside the sequence, not against the prefix). -/
def relDepthOk : List String → Nat → Bool
  | [], _ => true
  | s :: rest, d =>
    if s = "" ∨ s = "." then relDepthOk rest d
    else if s = ".." then
      match d with
      | 0 => false
      | d' + 1 => relDepthOk rest d'
    else relDepthOk rest (d + 1)

/-- The two runs agree on everything except possibly the validation outcome
fields other than `resolvedPath` (same urls, kinds and resolved paths; the
`valid` flags, status codes and messages are free to differ). -/
def agreeLink (a b : LinkV) : Bool :=
  a.url == b.url && decide (a.type = b.type) && a.status.resolvedPath == b.status.resolvedPath

def agreeLinks : List LinkV → List LinkV → Bool
  | [], [] => true
  | a :: as, b :: bs => agreeLink a b && agreeLinks as bs
  | _, _ => false

def agreeResults : List FileResultV → List FileResultV → Bool
  | [], [] => true
  | a :: as, b :: bs => a.filename == b.filename && agreeLinks a.links b.links && agreeResults as bs
  | _, _ => false

/-! ## Deduplication lemmas -/

theorem mem_insertLink {acc : List (List Char)} {a x : List Char} :
    x ∈ insertLink acc a ↔ x ∈ acc ∨ x = a := by
  unfold insertLink
  split
  · rename_i h
    constructor
    · exact Or.inl
    · rintro (hx | rfl) <;> [exact hx; exact h]
  · simp

theorem mem_foldl_insertLink :
    ∀ (l : List (List Char)) (acc : List (List Char)) (x : List Char),
      x ∈ l.foldl insertLink acc ↔ x ∈ acc ∨ x ∈ l := by
  intro l
  induction l with
  | nil => simp
  | cons a as ih =>
    intro acc x
    rw [List.foldl_cons, ih, mem_insertLink, List.mem_cons]
    tauto

theorem foldl_insertLink_eq_dedupFirst (l : List (List Char)) :
    l.foldl insertLink [] = (l.reverse.dedup).reverse := by
  induction l using List.reverseRecOn with
  | nil => rfl
  | append_singleton l a ih =>
    rw [List.foldl_append, List.foldl_cons, List.foldl_nil, List.reverse_append]
    by_cases h : a ∈ l
    · have hmem : a ∈ l.foldl insertLink [] := by
        rw [mem_foldl_insertLink]
        exact Or.inr h
      rw [insertLink, if_pos hmem, ih]
      have : (([a].reverse ++ l.reverse).dedup) = l.reverse.dedup := by
        simp only [List.reverse_singleton, List.singleton_append]
        exact List.dedup_cons_of_mem (List.mem_reverse.mpr h)
      rw [this]
    · have hmem : a ∉ l.foldl insertLink [] := by
        rw [mem_foldl_insertLink]
        simp [h]
      rw [insertLink, if_neg hmem, ih]
      have : (([a].reverse ++ l.reverse).dedup) = a :: l.reverse.dedup := by
        simp only [List.reverse_singleton, List.singleton_append]
        exact List.dedup_cons_of_not_mem (fun hc => h (List.mem_reverse.mp hc))
      rw [this, List.reverse_cons]

theorem extractStep_eq (acc : List (List Char)) (c : List Char) :
    extractStep acc c = (commentMatches c).foldl insertLink acc := by
  unfold extractStep commentMatches
  rw [List.map_append, List.foldl_append, List.foldl_map, List.foldl_map]

theorem extractLinks_eq_foldl (comments : List (List Char)) :
    extractLinks comments = (allMatches comments).foldl insertLink [] := by
  suffices h : ∀ acc : List (List Char),
      comments.foldl extractStep acc = (allMatches comments).foldl insertLink acc by
    exact h []
  induction comments with
  | nil =>
    intro acc
    simp only [List.foldl_nil, allMatches, List.map_nil, List.flatten_nil]
  | cons c cs ih =>
    intro acc
    rw [List.foldl_cons, ih]
    show _ = (((c :: cs).map commentMatches).flatten).foldl insertLink acc
    rw [List.map_cons, List.flatten_cons, List.foldl_append, extractStep_eq]
    simp only [allMatches]

/-- **C5.** Within one file the extracted link list has set semantics: it is
duplicate-free, and it equals the discovery stream of trimmed pattern matches
with every repetition of a text removed except its first occurrence
(`List.dedup` keeps the *last* occurrence, so conjugating it with `reverse`
keeps the *first* occurrence with discovery order preserved). -/
theorem c5_dedup_first_occurrence (comments : List (List Char)) :
    extractLinks comments = ((allMatches comments).reverse.dedup).reverse ∧
    (extractLinks comments).Nodup := by
  have h := extractLinks_eq_foldl comments
  rw [h, foldl_insertLink_eq_dedupFirst]
  exact ⟨rfl, List.nodup_reverse.mpr (List.nodup_dedup _)⟩

/-! ## Token-shape lemmas -/

theorem leadsWith_append (p b : List Char) : leadsWith p (p ++ b) = true := by
  unfold leadsWith
  rw [beq_iff_eq]
  induction p with
  | nil => rfl
  | cons c cs ih => simp [ih]

theorem jsSpace_eq_false_of_urlStop {c : Char} (h : urlStop c = false) :
    jsSpace c = false := by
  unfold urlStop at h
  cases hj : jsSpace c
  · rfl
  · rw [hj] at h
    simp at h

theorem mem_takeWhile_not_urlStop {body s : List Char} {c : Char}
    (hb : body = s.takeWhile (fun c => !urlStop c)) (hc : c ∈ body) :
    jsSpace c = false := by
  subst hb
  have := List.mem_takeWhile_imp hc
  exact jsSpace_eq_false_of_urlStop (by simpa using this)

theorem matchAbsAt_tok {s tok rest : List Char} (h : matchAbsAt s = some (tok, rest)) :
    (leadsWith httpsLead tok = true ∨ leadsWith httpLead tok = true) ∧
    (∀ c ∈ tok, jsSpace c = false) := by
  unfold matchAbsAt at h
  dsimp only at h
  split at h
  · split at h
    · exact absurd h (by simp)
    · rw [Option.some.injEq, Prod.mk.injEq] at h
      obtain ⟨htok, -⟩ := h
      subst htok
      refine ⟨Or.inl (leadsWith_append _ _), ?_⟩
      intro c hc
      rw [List.mem_append] at hc
      cases hc with
      | inl hc => revert hc; revert c; decide
      | inr hc => exact mem_takeWhile_not_urlStop rfl hc
  · split at h
    · split at h
      · exact absurd h (by simp)
      · rw [Option.some.injEq, Prod.mk.injEq] at h
        obtain ⟨htok, -⟩ := h
        subst htok
        refine ⟨Or.inr (leadsWith_append _ _), ?_⟩
        intro c hc
        rw [List.mem_append] at hc
        cases hc with
        | inl hc => revert hc; revert c; decide
        | inr hc => exact mem_takeWhile_not_urlStop rfl hc
    · exact absurd h (by simp)

theorem matchRelAt_tok {s tok rest : List Char} (h : matchRelAt s = some (tok, rest)) :
    (leadsWith ("../".toList) tok = true ∨ leadsWith ("./".toList) tok = true ∨
      leadsWith ("/".toList) tok = true) ∧
    (∀ c ∈ tok, jsSpace c = false) := by
  unfold matchRelAt at h
  dsimp only at h
  split at h
  · split at h
    · exact absurd h (by simp)
    · rw [Option.some.injEq, Prod.mk.injEq] at h
      obtain ⟨htok, -⟩ := h
      subst htok
      refine ⟨Or.inl (leadsWith_append ("../".toList) _), ?_⟩
      intro c hc
      simp only [List.mem_cons] at hc
      rcases hc with rfl | rfl | rfl | hc
      · decide
      · decide
      · decide
      · exact mem_takeWhile_not_urlStop rfl hc
  · split at h
    · exact absurd h (by simp)
    · rw [Option.some.injEq, Prod.mk.injEq] at h
      obtain ⟨htok, -⟩ := h
      subst htok
      refine ⟨Or.inr (Or.inl (leadsWith_append ("./".toList) _)), ?_⟩
      intro c hc
      simp only [List.mem_cons] at hc
      rcases hc with rfl | rfl | hc
      · decide
      · decide
      · exact mem_takeWhile_not_urlStop rfl hc
  · split at h
    · exact absurd h (by simp)
    · rw [Option.some.injEq, Prod.mk.injEq] at h
      obtain ⟨htok, -⟩ := h
      subst htok
      refine ⟨Or.inr (Or.inr (leadsWith_append ("/".toList) _)), ?_⟩
      intro c hc
      simp only [List.mem_cons] at hc
      rcases hc with rfl | hc
      · decide
      · exact mem_takeWhile_not_urlStop rfl hc
  · exact absurd h (by simp)

theorem scanTokensF_mem {m : List Char → Option (List Char × List Char)}
    {P : List Char → Prop}
    (hm : ∀ s tok rest, m s = some (tok, rest) → P tok) :
    ∀ (fuel : Nat) (s tok : List Char), tok ∈ scanTokensF m fuel s → P tok := by
  intro fuel
  induction fuel with
  | zero =>
    intro s tok h
    simp [scanTokensF] at h
  | succ n ih =>
    intro s tok h
    cases s with
    | nil => simp [scanTokensF] at h
    | cons c rest =>
      rw [scanTokensF] at h
      cases hmatch : m (c :: rest) with
      | some pr =>
        obtain ⟨t, r⟩ := pr
        rw [hmatch] at h
        rcases List.mem_cons.mp h with rfl | hmem
        · exact hm _ _ _ hmatch
        · exact ih _ _ hmem
      | none =>
        rw [hmatch] at h
        exact ih _ _ h

theorem dropWhile_eq_self_of_all {p : Char → Bool} {l : List Char}
    (h : ∀ c ∈ l, p c = false) : l.dropWhile p = l := by
  cases l with
  | nil => rfl
  | cons c rest =>
    rw [List.dropWhile_cons, h c (List.mem_cons_self c rest)]
    simp

theorem jsTrim_eq_self {l : List Char} (h : ∀ c ∈ l, jsSpace c = false) :
    jsTrim l = l := by
  unfold jsTrim
  rw [dropWhile_eq_self_of_all h]
  rw [dropWhile_eq_self_of_all (fun c hc => h c (List.mem_reverse.mp hc))]
  exact List.reverse_reverse l

theorem leadsWith_take {p x : List Char} (k : Nat) (hk : k ≤ p.length)
    (h : leadsWith p x = true) : leadsWith (p.take k) x = true := by
  unfold leadsWith at h ⊢
  rw [beq_iff_eq] at h ⊢
  rw [List.length_take, Nat.min_eq_left hk]
  conv_rhs => rw [← h]
  rw [List.take_take, Nat.min_eq_left hk]

theorem classifyLink_of_http {x : List Char}
    (h : leadsWith httpLead x = true ∨ leadsWith httpsLead x = true) :
    classifyLink x = .absolute := by
  have h4 : leadsWith ("http".toList) x = true := by
    cases h with
    | inl h =>
      have := leadsWith_take 4 (by decide) h
      rwa [show httpLead.take 4 = "http".toList from by decide] at this
    | inr h =>
      have := leadsWith_take 4 (by decide) h
      rwa [show httpsLead.take 4 = "http".toList from by decide] at this
  unfold classifyLink
  rw [if_pos h4]

theorem leadsWith_head {c : Char} {p x : List Char} (h : leadsWith (c :: p) x = true) :
    ∃ rest, x = c :: rest := by
  unfold leadsWith at h
  rw [beq_iff_eq] at h
  cases x with
  | nil => simp at h
  | cons d rest =>
    rw [List.length_cons, List.take_succ_cons] at h
    obtain ⟨rfl, -⟩ := List.cons.injEq d _ c _ ▸ h
    exact ⟨rest, rfl⟩

theorem classifyLink_head_ne {c : Char} {rest : List Char} (hc : c ≠ 'h') :
    classifyLink (c :: rest) = .relative := by
  unfold classifyLink
  rw [if_neg]
  intro hcon
  obtain ⟨r, hr⟩ := leadsWith_head (p := "ttp".toList) hcon
  exact hc (List.cons.injEq c rest 'h' r ▸ hr).1

theorem mem_allMatches_of_mem_extractLinks {comments : List (List Char)}
    {x : List Char} (h : x ∈ extractLinks comments) : x ∈ allMatches comments := by
  rw [extractLinks_eq_foldl, mem_foldl_insertLink] at h
  simpa using h

/-- **C6.** Every link token the extractor emits begins with `http://`,
`https://`, `./`, `../` or `/`; a token with one of the http prefixes is
classified `Absolute`, one with a path prefix is classified `Relative`, and no
token of any other shape exists in the output. -/
theorem c6_classification_pure (comments : List (List Char)) (x : List Char)
    (hx : x ∈ extractLinks comments) :
    ((leadsWith httpLead x = true ∨ leadsWith httpsLead x = true) ∧
      classifyLink x = .absolute) ∨
    ((leadsWith ("./".toList) x = true ∨ leadsWith ("../".toList) x = true ∨
      leadsWith ("/".toList) x = true) ∧ classifyLink x = .relative) := by
  have hx' := mem_allMatches_of_mem_extractLinks hx
  unfold allMatches at hx'
  rw [List.mem_flatten] at hx'
  obtain ⟨l, hl, hxl⟩ := hx'
  rw [List.mem_map] at hl
  obtain ⟨c, hc, rfl⟩ := hl
  unfold commentMatches at hxl
  rw [List.mem_map] at hxl
  obtain ⟨tok, htok, rfl⟩ := hxl
  rw [List.mem_append] at htok
  cases htok with
  | inl habs =>
    unfold scanAbs at habs
    have hshape := scanTokensF_mem (fun s t r h => matchAbsAt_tok h) _ _ _ habs
    obtain ⟨hpre, hns⟩ := hshape
    rw [jsTrim_eq_self hns]
    rcases hpre with h | h
    · exact Or.inl ⟨Or.inr h, classifyLink_of_http (Or.inr h)⟩
    · exact Or.inl ⟨Or.inl h, classifyLink_of_http (Or.inl h)⟩
  | inr hrel =>
    unfold scanRel at hrel
    have hshape := scanTokensF_mem (fun s t r h => matchRelAt_tok h) _ _ _ hrel
    obtain ⟨hpre, hns⟩ := hshape
    rw [jsTrim_eq_self hns]
    rcases hpre with h | h | h
    · obtain ⟨r, rfl⟩ := leadsWith_head (c := '.') (p := "./".toList) h
      exact Or.inr ⟨Or.inr (Or.inl h), classifyLink_head_ne (by decide)⟩
    · obtain ⟨r, rfl⟩ := leadsWith_head (c := '.') (p := "/".toList) h
      exact Or.inr ⟨Or.inl h, classifyLink_head_ne (by decide)⟩
    · obtain ⟨r, rfl⟩ := leadsWith_head (c := '/') (p := ([] : List Char)) h
      exact Or.inr ⟨Or.inr (Or.inr h), classifyLink_head_ne (by decide)⟩

/-- Concrete instance of the classification theorem: the token extracted from
`see ./docs/guide.md` has the `./` prefix and is classified `Relative`. -/
theorem c6_classification_pure_witness :
    ((leadsWith httpLead ("./docs/guide.md".toList) = true ∨
      leadsWith httpsLead ("./docs/guide.md".toList) = true) ∧
      classifyLink ("./docs/guide.md".toList) = .absolute) ∨
    ((leadsWith ("./".toList) ("./docs/guide.md".toList) = true ∨
      leadsWith ("../".toList) ("./docs/guide.md".toList) = true ∨
      leadsWith ("/".toList) ("./docs/guide.md".toList) = true) ∧
      classifyLink ("./docs/guide.md".toList) = .relative) :=
  c6_classification_pure [("see ./docs/guide.md".toList)] ("./docs/guide.md".toList)
    (by decide)

/-! ## Template-missing behaviour (C2) and validation outcomes (C3, C4) -/

/-- **C2 counterexample.** With the template file absent, the composer of
`check-links.ts` produces no rendered report at all: `executeTemplate` signals
the thrown `Template not found` error (`none`) instead of falling back to a
built-in default text, and the whole compilation step aborts with it. -/
theorem c2_missing_template_counterexample :
    executeTemplate (fun _ => none) Template.noLinks none none = none ∧
    compileTemplateFromLinks (fun _ => none) "owner" "repo" "sha" [] [] [] = none :=
  ⟨rfl, rfl⟩

/-- **C2 (amended).** In `check-links.ts`, whenever the requested template
file is absent, `executeTemplate` raises the `Template not found` error and no
rendered report is produced (the run aborts; the top-level handler merely
turns this into a non-failing exit status).  The fallback to a built-in
default text exists only in the legacy variant. -/
theorem c2_missing_template_aborts (loadTemplate : Template → Option String)
    (t : Template) (c : Option Nat) (o : Option String)
    (h : loadTemplate t = none) :
    executeTemplate loadTemplate t c o = none := by
  unfold executeTemplate
  rw [h]

theorem c2_missing_template_aborts_witness :
    executeTemplate (fun _ => none) Template.pending (some 3) (some "x") = none :=
  c2_missing_template_aborts (fun _ => none) Template.pending (some 3) (some "x") rfl

/-- **C3 counterexample.** An absolute link with a malformed URL — the token
`http://a:b:c` is extractable (`:` is not a stop character) and classified
Absolute — makes `client.get` throw synchronously, so validation returns no
outcome as data: the exception escapes the validation boundary
(`Except.error`), refuting "always returns an outcome as data and never
throws past the validation boundary". -/
theorem c3_malformed_url_throws :
    checkLinkValidity (fun _ => false) []
      (fun _ _ => RequestOutcome.threw "Invalid URL") "http://a:b:c" "src/app.js" =
      Except.error "Invalid URL" ∧
    scanAbs ("see http://a:b:c".toList) = [("http://a:b:c".toList)] ∧
    classifyLink ("http://a:b:c".toList) = LinkType.absolute := by
  refine ⟨rfl, by decide, by decide⟩

/-- **C3 (amended).** For an absolute link whose request construction
succeeds, validation is exhaustive over the probe completions and resolves
every one of them as data; in particular the timeout completion of the
5000 ms-budgeted request yields exactly `{valid: false, message: "Timeout"}`.
A malformed URL instead makes `client.get` throw synchronously; the promise
rejects and the exception escapes the validation boundary. -/
theorem c3_timeout_outcome (fileExists : List String → Bool) (cwd : List String)
    (request : String → Nat → RequestOutcome) (url sourceFile : String)
    (habs : leadsWith ("http".toList) url.toList = true) :
    TIMEOUT_MS = 5000 ∧
    (∀ ev, request url TIMEOUT_MS = RequestOutcome.completed ev →
      ∃ st, checkLinkValidity fileExists cwd request url sourceFile = Except.ok st) ∧
    (request url TIMEOUT_MS = RequestOutcome.completed ProbeEvent.timeout →
      checkLinkValidity fileExists cwd request url sourceFile =
        Except.ok
          { valid := false, message := some "Timeout", statusCode := none,
            resolvedPath := none }) := by
  have hcond : ¬ (leadsWith ("http".toList) url.toList = false) := by
    rw [habs]
    simp
  refine ⟨rfl, ?_, ?_⟩
  · intro ev hev
    unfold checkLinkValidity
    rw [if_neg hcond, hev]
    cases ev with
    | response sc =>
      dsimp only
      by_cases h2 : 200 ≤ sc ∧ sc < 400
      · exact ⟨{ valid := true, statusCode := some sc }, by rw [if_pos h2]⟩
      · exact ⟨{ valid := false, statusCode := some sc }, by rw [if_neg h2]⟩
    | networkError msg => exact ⟨_, rfl⟩
    | timeout => exact ⟨_, rfl⟩
  · intro ht
    unfold checkLinkValidity
    rw [if_neg hcond, ht]

theorem c3_timeout_outcome_witness :
    TIMEOUT_MS = 5000 ∧
    (∀ ev, (fun (_ : String) (_ : Nat) => RequestOutcome.completed ProbeEvent.timeout)
        "https://example.com/docs" TIMEOUT_MS = RequestOutcome.completed ev →
      ∃ st, checkLinkValidity (fun _ => false) []
        (fun _ _ => RequestOutcome.completed ProbeEvent.timeout)
        "https://example.com/docs" "src/app.js" = Except.ok st) ∧
    ((fun (_ : String) (_ : Nat) => RequestOutcome.completed ProbeEvent.timeout)
        "https://example.com/docs" TIMEOUT_MS = RequestOutcome.completed ProbeEvent.timeout →
      checkLinkValidity (fun _ => false) []
        (fun _ _ => RequestOutcome.completed ProbeEvent.timeout)
        "https://example.com/docs" "src/app.js" =
        Except.ok
          { valid := false, message := some "Timeout", statusCode := none,
            resolvedPath := none }) :=
  c3_timeout_outcome (fun _ => false) [] (fun _ _ => RequestOutcome.completed ProbeEvent.timeout)
    "https://example.com/docs" "src/app.js" (by decide)

/-- **C4 counterexample.** For the malformed absolute link
`http://host:port:extra`, validation yields no invalid outcome at all — the
synchronous `client.get` throw surfaces as an error, not as
`{valid: false, …}` — refuting "malformed URLs yield an invalid outcome". -/
theorem c4_malformed_url_not_invalid :
    checkLinkValidity (fun _ => false) []
      (fun _ _ => RequestOutcome.threw "Invalid URL") "http://host:port:extra" "src/app.js" =
      Except.error "Invalid URL" ∧
    (∀ st : LinkStatus, checkLinkValidity (fun _ => false) []
      (fun _ _ => RequestOutcome.threw "Invalid URL") "http://host:port:extra" "src/app.js" ≠
      Except.ok st) := by
  refine ⟨rfl, fun st h => Except.noConfusion h⟩

/-- **C4 (amended).** For an absolute link whose probe completes with an HTTP
status code, the outcome is valid exactly for codes 200–399 inclusive and
always records the code; a completion via the request's `error` event
(connection refused, DNS failure, …) is always an invalid outcome.  A
malformed URL yields no outcome: request construction throws and the
rejection aborts the run. -/
theorem c4_status_classification (fileExists : List String → Bool)
    (cwd : List String) (request : String → Nat → RequestOutcome) (url sourceFile : String)
    (habs : leadsWith ("http".toList) url.toList = true) :
    (∀ sc, request url TIMEOUT_MS = RequestOutcome.completed (ProbeEvent.response sc) →
      ∃ st, checkLinkValidity fileExists cwd request url sourceFile = Except.ok st ∧
        (st.valid = true ↔ (200 ≤ sc ∧ sc ≤ 399)) ∧ st.statusCode = some sc) ∧
    (∀ msg, request url TIMEOUT_MS = RequestOutcome.completed (ProbeEvent.networkError msg) →
      checkLinkValidity fileExists cwd request url sourceFile =
        Except.ok
          { valid := false, message := some msg, statusCode := none,
            resolvedPath := none }) := by
  have hcond : ¬ (leadsWith ("http".toList) url.toList = false) := by
    rw [habs]
    simp
  constructor
  · intro sc hsc
    unfold checkLinkValidity
    rw [if_neg hcond, hsc]
    dsimp only
    by_cases h2 : 200 ≤ sc ∧ sc < 400
    · rw [if_pos h2]
      exact ⟨_, rfl, ⟨fun _ => ⟨h2.1, by omega⟩, fun _ => rfl⟩, rfl⟩
    · rw [if_neg h2]
      refine ⟨_, rfl, ⟨fun hcon => ?_, fun hrange => absurd ⟨hrange.1, by omega⟩ h2⟩, rfl⟩
      simp at hcon
  · intro msg hmsg
    unfold checkLinkValidity
    rw [if_neg hcond, hmsg]

theorem c4_status_classification_witness :
    (∀ sc, (fun (_ : String) (_ : Nat) => RequestOutcome.completed (ProbeEvent.response 404))
        "https://api.example.com/missing" TIMEOUT_MS =
          RequestOutcome.completed (ProbeEvent.response sc) →
      ∃ st, checkLinkValidity (fun _ => false) []
          (fun _ _ => RequestOutcome.completed (ProbeEvent.response 404))
          "https://api.example.com/missing" "src/app.js" = Except.ok st ∧
        (st.valid = true ↔ (200 ≤ sc ∧ sc ≤ 399)) ∧ st.statusCode = some sc) ∧
    (∀ msg, (fun (_ : String) (_ : Nat) => RequestOutcome.completed (ProbeEvent.response 404))
        "https://api.example.com/missing" TIMEOUT_MS =
          RequestOutcome.completed (ProbeEvent.networkError msg) →
      checkLinkValidity (fun _ => false) []
          (fun _ _ => RequestOutcome.completed (ProbeEvent.response 404))
          "https://api.example.com/missing" "src/app.js" =
        Except.ok
          { valid := false, message := some msg, statusCode := none,
            resolvedPath := none }) :=
  c4_status_classification (fun _ => false) []
    (fun _ _ => RequestOutcome.completed (ProbeEvent.response 404))
    "https://api.example.com/missing" "src/app.js" (by decide)


/-! ## The completeness decision ignores validation outcomes (C10) -/

theorem linkUpdatedV_eq_of_agree (cwd : List String)
    (changedFilePaths : List (List String)) {a b : LinkV}
    (h : agreeLink a b = true) :
    linkUpdatedV cwd changedFilePaths a = linkUpdatedV cwd changedFilePaths b := by
  unfold agreeLink at h
  rw [Bool.and_eq_true, Bool.and_eq_true] at h
  obtain ⟨⟨-, htype⟩, hrp⟩ := h
  rw [decide_eq_true_iff] at htype
  rw [beq_iff_eq] at hrp
  unfold linkUpdatedV
  rw [htype, hrp]

theorem allLinks_eq_of_agree {f : LinkV → Bool}
    (hf : ∀ a b, agreeLink a b = true → f a = f b) :
    ∀ l1 l2, agreeLinks l1 l2 = true → l1.all f = l2.all f := by
  intro l1
  induction l1 with
  | nil =>
    intro l2 h
    cases l2 with
    | nil => rfl
    | cons b bs => simp [agreeLinks] at h
  | cons a as ih =>
    intro l2 h
    cases l2 with
    | nil => simp [agreeLinks] at h
    | cons b bs =>
      rw [show agreeLinks (a :: as) (b :: bs) = (agreeLink a b && agreeLinks as bs)
        from rfl, Bool.and_eq_true] at h
      rw [List.all_cons, List.all_cons, hf a b h.1, ih bs h.2]

theorem checkAllV_eq_of_agree (cwd : List String) (changedFiles : List String) :
    ∀ r1 r2, agreeResults r1 r2 = true →
      checkAllLinksUpdatedV cwd r1 changedFiles = checkAllLinksUpdatedV cwd r2 changedFiles := by
  intro r1
  induction r1 with
  | nil =>
    intro r2 h
    cases r2 with
    | nil => rfl
    | cons b bs => simp [agreeResults] at h
  | cons a as ih =>
    intro r2 h
    cases r2 with
    | nil => simp [agreeResults] at h
    | cons b bs =>
      rw [show agreeResults (a :: as) (b :: bs) =
        (a.filename == b.filename && agreeLinks a.links b.links && agreeResults as bs)
        from rfl, Bool.and_eq_true, Bool.and_eq_true] at h
      obtain ⟨⟨-, hlinks⟩, hrest⟩ := h
      have hinner := allLinks_eq_of_agree
        (fun x y hxy => linkUpdatedV_eq_of_agree cwd
          (changedFiles.map (fun f => pathResolve cwd [f])) hxy)
        a.links b.links hlinks
      have htail := ih bs hrest
      unfold checkAllLinksUpdatedV at htail ⊢
      rw [List.all_cons, List.all_cons, hinner, htail]

theorem agreeResults_isEmpty {r1 r2 : List FileResultV}
    (h : agreeResults r1 r2 = true) : r1.isEmpty = r2.isEmpty := by
  cases r1 with
  | nil =>
    cases r2 with
    | nil => rfl
    | cons b bs => simp [agreeResults] at h
  | cons a as =>
    cases r2 with
    | nil => simp [agreeResults] at h
    | cons b bs => rfl

/-- **C10.** The chosen report variant depends only on each link's kind and
(for relative links) its stored resolved path: two runs that agree on urls,
kinds and resolved paths but differ arbitrarily in their validation outcomes
(valid flags, status codes, messages) produce the same completeness verdict
and the same variant. -/
theorem c10_variant_ignores_validity (cwd changedFiles : List String)
    (r1 r2 : List FileResultV) (h : agreeResults r1 r2 = true) :
    checkAllLinksUpdatedV cwd r1 changedFiles = checkAllLinksUpdatedV cwd r2 changedFiles ∧
    chooseTemplateV cwd r1 changedFiles = chooseTemplateV cwd r2 changedFiles := by
  have hall := checkAllV_eq_of_agree cwd changedFiles r1 r2 h
  refine ⟨hall, ?_⟩
  unfold chooseTemplateV
  rw [hall, agreeResults_isEmpty h]

/-- Concrete instance: a run whose only link is a relative link resolving to
a changed file that was *validated as existing* and a second run identical
except that the target is *missing* (`valid := false`) choose the same
variant; moreover that variant is `AllUpdated`, so a broken-but-touched
relative link still permits `AllUpdated`. -/
theorem c10_variant_ignores_validity_witness :
    (checkAllLinksUpdatedV ["w"]
        [⟨"src/app.js", [⟨"./docs/guide.md", .relative,
          ⟨true, some "File exists", none, some "docs/guide.md"⟩⟩]⟩]
        ["src/app.js", "docs/guide.md"] =
      checkAllLinksUpdatedV ["w"]
        [⟨"src/app.js", [⟨"./docs/guide.md", .relative,
          ⟨false, some "File not found in repository", none, some "docs/guide.md"⟩⟩]⟩]
        ["src/app.js", "docs/guide.md"] ∧
    chooseTemplateV ["w"]
        [⟨"src/app.js", [⟨"./docs/guide.md", .relative,
          ⟨true, some "File exists", none, some "docs/guide.md"⟩⟩]⟩]
        ["src/app.js", "docs/guide.md"] =
      chooseTemplateV ["w"]
        [⟨"src/app.js", [⟨"./docs/guide.md", .relative,
          ⟨false, some "File not found in repository", none, some "docs/guide.md"⟩⟩]⟩]
        ["src/app.js", "docs/guide.md"]) ∧
    chooseTemplateV ["w"]
        [⟨"src/app.js", [⟨"./docs/guide.md", .relative,
          ⟨false, some "File not found in repository", none, some "docs/guide.md"⟩⟩]⟩]
        ["src/app.js", "docs/guide.md"] = Template.allUpdated :=
  ⟨c10_variant_ignores_validity ["w"] ["src/app.js", "docs/guide.md"] _ _ (by decide),
    by decide⟩

/-! ## The completeness rule (C1) -/

theorem contains_iff_mem (l : List (List String)) (x : List String) :
    l.contains x = true ↔ x ∈ l := by
  show List.elem x l = true ↔ x ∈ l
  exact List.elem_iff

theorem parse_mem_links_ne_nil {reader : String → Option String}
    {files : List String} {r : FileResult}
    (h : r ∈ parseFilesForLinks reader files) : r.links ≠ [] := by
  unfold parseFilesForLinks at h
  rw [List.mem_filterMap] at h
  obtain ⟨file, -, hf⟩ := h
  cases hr : reader file with
  | none =>
    rw [hr] at hf
    simp at hf
  | some content =>
    rw [hr] at hf
    dsimp only at hf
    split at hf
    · simp at hf
    · rename_i hne
      rw [Option.some.injEq] at hf
      subst hf
      intro hcon
      dsimp at hcon
      rw [List.map_eq_nil_iff] at hcon
      exact hne (List.isEmpty_iff.mpr hcon)

theorem parse_eq_nil_iff (reader : String → Option String) (files : List String) :
    parseFilesForLinks reader files = [] ↔
      ∀ f ∈ files, ∀ content, reader f = some content →
        extractLinks (extractComments content.toList) = [] := by
  unfold parseFilesForLinks
  rw [List.filterMap_eq_nil_iff]
  constructor
  · intro h f hf content hc
    have hx := h f hf
    rw [hc] at hx
    dsimp only at hx
    split at hx
    · rename_i hemp
      exact List.isEmpty_iff.mp hemp
    · simp at hx
  · intro h f hf
    cases hc : reader f with
    | none => rfl
    | some content =>
      dsimp only
      rw [if_pos (List.isEmpty_iff.mpr (h f hf content hc))]

theorem linkUpdated_eq_false_iff (cwd : List String) (changedFiles : List String)
    (filename : String) (l : Link) :
    linkUpdated cwd (changedFiles.map (fun f => pathResolve cwd [f])) filename l = false ↔
      (l.type = LinkType.absolute ∨
        (l.type = LinkType.relative ∧
          resolveFull cwd filename l.url ∉
            changedFiles.map (fun f => pathResolve cwd [f]))) := by
  unfold linkUpdated
  cases htype : l.type with
  | absolute => simp
  | relative =>
    constructor
    · intro h
      refine Or.inr ⟨rfl, fun hmem => ?_⟩
      rw [(contains_iff_mem _ _).mpr hmem] at h
      exact absurd h (by simp)
    · rintro (hcon | ⟨-, hmem⟩)
      · exact absurd hcon (by simp)
      · cases hcont : (changedFiles.map (fun f => pathResolve cwd [f])).contains
            (resolveFull cwd filename l.url) with
        | false => rfl
        | true => exact absurd ((contains_iff_mem _ _).mp hcont) hmem

theorem linkUpdated_eq_not_bad (cwd : List String) (changedFiles : List String)
    (filename : String) (l : Link) :
    linkUpdated cwd (changedFiles.map (fun f => pathResolve cwd [f])) filename l =
      !(decide (l.type = LinkType.absolute ∨
        (l.type = LinkType.relative ∧
          resolveFull cwd filename l.url ∉
            changedFiles.map (fun f => pathResolve cwd [f])))) := by
  by_cases hp : (l.type = LinkType.absolute ∨
      (l.type = LinkType.relative ∧
        resolveFull cwd filename l.url ∉ changedFiles.map (fun f => pathResolve cwd [f])))
  · rw [(linkUpdated_eq_false_iff cwd changedFiles filename l).mpr hp, decide_eq_true hp]
    rfl
  · rw [decide_eq_false hp]
    cases hf : linkUpdated cwd (changedFiles.map (fun f => pathResolve cwd [f])) filename l with
    | false => exact absurd ((linkUpdated_eq_false_iff cwd changedFiles filename l).mp hf) hp
    | true => rfl

theorem links_all_eq_not_any_bad (cwd : List String) (changedFiles : List String)
    (filename : String) (links : List Link) :
    links.all (linkUpdated cwd (changedFiles.map (fun f => pathResolve cwd [f])) filename) =
      !(links.any (fun l => decide (l.type = LinkType.absolute ∨
        (l.type = LinkType.relative ∧
          resolveFull cwd filename l.url ∉
            changedFiles.map (fun f => pathResolve cwd [f]))))) := by
  induction links with
  | nil => rfl
  | cons l ls ih =>
    rw [List.all_cons, List.any_cons, ih, linkUpdated_eq_not_bad, Bool.not_or]

theorem checkAll_eq_not_anyBad (cwd : List String) (results : List FileResult)
    (changedFiles : List String) :
    checkAllLinksUpdated cwd results changedFiles =
      !(results.any (fun r => r.links.any (fun l =>
        decide (l.type = LinkType.absolute ∨
          (l.type = LinkType.relative ∧
            resolveFull cwd r.filename l.url ∉
              changedFiles.map (fun f => pathResolve cwd [f])))))) := by
  unfold checkAllLinksUpdated
  dsimp only
  induction results with
  | nil => rfl
  | cons r rs ih =>
    rw [List.all_cons, List.any_cons, ih, links_all_eq_not_any_bad, Bool.not_or]

/-- **C1.** The run chooses exactly one variant by the specified rule: when no
scanned file produced any link the variant is `NoLinks`; otherwise `Pending`
exactly when some link is absolute or some relative link resolves outside the
changed-file set, and `AllUpdated` otherwise.  The second conjunct ties the
emptiness test the code uses (`results.length === 0`) to "no scanned file
produced any link". -/
theorem c1_variant_rule (cwd : List String) (reader : String → Option String)
    (files changedFiles : List String) :
    chosenTemplate cwd (parseFilesForLinks reader files) changedFiles =
      specVariant cwd (parseFilesForLinks reader files) changedFiles ∧
    (parseFilesForLinks reader files = [] ↔
      ∀ f ∈ files, ∀ content, reader f = some content →
        extractLinks (extractComments content.toList) = []) := by
  refine ⟨?_, parse_eq_nil_iff reader files⟩
  unfold chosenTemplate specVariant
  cases hcase : parseFilesForLinks reader files with
  | nil => simp
  | cons r rs =>
    have hne : r.links ≠ [] :=
      parse_mem_links_ne_nil (hcase ▸ List.mem_cons_self r rs)
    have h1 : r.links.isEmpty = false := by
      cases hl : r.links with
      | nil => exact absurd hl hne
      | cons a as => rfl
    rw [checkAll_eq_not_anyBad]
    simp only [List.isEmpty_cons, List.all_cons, h1, Bool.false_and,
      Bool.false_eq_true, if_false]
    cases hany : (r :: rs).any (fun r => r.links.any (fun l =>
        decide (l.type = LinkType.absolute ∨
          (l.type = LinkType.relative ∧
            resolveFull cwd r.filename l.url ∉
              changedFiles.map (fun f => pathResolve cwd [f]))))) with
    | false => rfl
    | true => rfl

/-! ## Path resolution stays root-relative (C7) -/

theorem contains_iff_mem' {α : Type} [BEq α] [LawfulBEq α] (l : List α) (x : α) :
    l.contains x = true ↔ x ∈ l := by
  show List.elem x l = true ↔ x ∈ l
  exact List.elem_iff

theorem mem_foldl_normStep :
    ∀ (segs : List String) (acc : List String) (x : String),
      x ∈ segs.foldl normStep acc →
      x ∈ acc ∨ (x ∈ segs ∧ ¬(x = "" ∨ x = "." ∨ x = "..")) := by
  intro segs
  induction segs with
  | nil =>
    intro acc x h
    exact Or.inl h
  | cons s rest ih =>
    intro acc x h
    rw [List.foldl_cons] at h
    rcases ih (normStep acc s) x h with hacc | ⟨hmem, hplain⟩
    · unfold normStep at hacc
      split at hacc
      · exact Or.inl hacc
      · split at hacc
        · exact Or.inl (List.dropLast_sublist acc |>.mem hacc)
        · rcases List.mem_append.mp hacc with hacc | hx
          · exact Or.inl hacc
          · rename_i h1 h2
            obtain rfl := List.mem_singleton.mp hx
            refine Or.inr ⟨List.mem_cons_self x rest, ?_⟩
            rintro (h | h | h)
            · exact h1 (Or.inl h)
            · exact h1 (Or.inr h)
            · exact h2 h
    · exact Or.inr ⟨List.mem_cons_of_mem s hmem, hplain⟩

theorem splitOnChar_ne_nil (sep : Char) (s : List Char) : splitOnChar sep s ≠ [] := by
  cases s with
  | nil => simp [splitOnChar]
  | cons c rest =>
    unfold splitOnChar
    split
    · simp
    · split <;> simp

theorem mem_splitOnChar_not_mem (sep : Char) :
    ∀ (s : List Char) (piece : List Char), piece ∈ splitOnChar sep s → sep ∉ piece := by
  intro s
  induction s with
  | nil =>
    intro piece h
    rw [show splitOnChar sep [] = [[]] from rfl, List.mem_singleton] at h
    subst h
    simp
  | cons c rest ih =>
    intro piece h
    unfold splitOnChar at h
    split at h
    · rcases List.mem_cons.mp h with rfl | h
      · simp
      · exact ih piece h
    · rename_i hne
      split at h
      · rename_i heq
        exact absurd heq (splitOnChar_ne_nil sep rest)
      · rename_i l ls heq
        rcases List.mem_cons.mp h with rfl | h
        · intro hcon
          rcases List.mem_cons.mp hcon with rfl | hcon
          · exact hne rfl
          · exact ih l (heq ▸ List.mem_cons_self l ls) hcon
        · exact ih piece (heq ▸ List.mem_cons_of_mem l h)

theorem mem_splitPath_no_slash {p : String} {x : String} (h : x ∈ splitPath p) :
    '/' ∉ x.toList := by
  unfold splitPath at h
  rw [List.mem_map] at h
  obtain ⟨piece, hpiece, rfl⟩ := h
  exact mem_splitOnChar_not_mem '/' p.toList piece hpiece

theorem mem_resolveArgs :
    ∀ (ps : List String) (acc : List String) (x : String),
      x ∈ ps.foldl (fun acc p => if pathAbs p then splitPath p else acc ++ splitPath p) acc →
      x ∈ acc ∨ ∃ p ∈ ps, x ∈ splitPath p := by
  intro ps
  induction ps with
  | nil =>
    intro acc x h
    exact Or.inl h
  | cons p rest ih =>
    intro acc x h
    rw [List.foldl_cons] at h
    rcases ih _ x h with hacc | ⟨q, hq, hx⟩
    · split at hacc
      · exact Or.inr ⟨p, List.mem_cons_self p rest, hacc⟩
      · rcases List.mem_append.mp hacc with hacc | hx
        · exact Or.inl hacc
        · exact Or.inr ⟨p, List.mem_cons_self p rest, hx⟩
    · exact Or.inr ⟨q, List.mem_cons_of_mem p hq, hx⟩

theorem mem_pathResolve_plain {cwd : List String} {ps : List String} {x : String}
    (hwf : wfCwd cwd = true) (h : x ∈ pathResolve cwd ps) :
    x ≠ "" ∧ '/' ∉ x.toList := by
  unfold pathResolve at h
  rcases mem_foldl_normStep _ [] x h with hnil | ⟨hmem, hplain⟩
  · simp at hnil
  · rcases mem_resolveArgs ps cwd x hmem with hcwd | ⟨p, -, hx⟩
    · have := List.all_eq_true.mp hwf x hcwd
      unfold wfSeg at this
      rw [Bool.and_eq_true, Bool.and_eq_true, Bool.and_eq_true] at this
      obtain ⟨⟨⟨h1, -⟩, -⟩, h4⟩ := this
      refine ⟨by simpa using h1, fun hc => ?_⟩
      rw [(contains_iff_mem' _ _).mpr hc] at h4
      simp at h4
    · exact ⟨fun hc => hplain (Or.inl hc), mem_splitPath_no_slash hx⟩

theorem pathAbs_joinPath_of_plain {segs : List String}
    (h : ∀ p ∈ segs, p ≠ "" ∧ '/' ∉ p.toList) :
    pathAbs (joinPath segs) = false := by
  cases segs with
  | nil => rfl
  | cons p rest =>
    obtain ⟨hne, hslash⟩ := h p (List.mem_cons_self p rest)
    have hplist : p.toList ≠ [] := by
      intro hc
      apply hne
      cases p
      simp at hc
      rw [hc]
    cases hp : p.toList with
    | nil => exact absurd hp hplist
    | cons c cs =>
      have hc : c ≠ '/' := by
        intro hcon
        exact hslash (hp ▸ hcon ▸ List.mem_cons_self c cs)
      unfold joinPath pathAbs leadsWith
      have : (String.mk (joinWith ['/'] ((p :: rest).map String.toList))).toList =
          p.toList ++ (match rest.map String.toList with
            | [] => []
            | y :: ys => '/' :: joinWith ['/'] (y :: ys)) := by
        cases rest with
        | nil => simp [joinWith]
        | cons q qs => simp [joinWith]
      rw [this, hp]
      cases cs with
      | nil =>
        cases rest with
        | nil => simp [hc]
        | cons q qs => simp [hc]
      | cons c2 cs2 => simp [hc]

/-- The displayed/compared resolved path of a link is never in
absolute-filesystem form: its first segment is a name or `..`, never empty,
so the rendered string never starts with `/`. -/
theorem resolveLink_not_abs (cwd : List String) (filename url : String)
    (hwf : wfCwd cwd = true) :
    pathAbs (resolveLink cwd filename url) = false := by
  unfold resolveLink pathRelative
  apply pathAbs_joinPath_of_plain
  intro p hp
  rcases List.mem_append.mp hp with hups | hdrop
  · have hdd : p = ".." := List.eq_of_mem_replicate hups
    subst hdd
    exact ⟨by decide, by decide⟩
  · have hmem : p ∈ resolveFull cwd filename url :=
      List.mem_of_mem_drop hdrop
    exact mem_pathResolve_plain hwf hmem

theorem dropLast_append_ne :
    ∀ (l1 l2 : List String), l2 ≠ [] → (l1 ++ l2).dropLast = l1 ++ l2.dropLast := by
  intro l1
  induction l1 with
  | nil => intro l2 h; rfl
  | cons a as ih =>
    intro l2 h
    have hne : as ++ l2 ≠ [] := by
      intro hc
      exact h (List.append_eq_nil.mp hc).2
    rw [List.cons_append, List.dropLast_cons_of_ne_nil hne, ih l2 h, List.cons_append]

theorem foldl_normStep_shift :
    ∀ (segs : List String) (d : Nat) (base extra : List String),
      relDepthOk segs d = true → extra.length = d →
      segs.foldl normStep (base ++ extra) = base ++ segs.foldl normStep extra := by
  intro segs
  induction segs with
  | nil =>
    intro d base extra _ _
    rfl
  | cons s rest ih =>
    intro d base extra hok hlen
    unfold relDepthOk at hok
    rw [List.foldl_cons, List.foldl_cons]
    by_cases h1 : s = "" ∨ s = "."
    · rw [if_pos h1] at hok
      rw [show normStep (base ++ extra) s = base ++ extra from by unfold normStep; rw [if_pos h1]]
      rw [show normStep extra s = extra from by unfold normStep; rw [if_pos h1]]
      exact ih d base extra hok hlen
    · rw [if_neg h1] at hok
      by_cases h2 : s = ".."
      · rw [if_pos h2] at hok
        cases d with
        | zero => simp at hok
        | succ d' =>
          have hextra : extra ≠ [] := by
            intro hc
            rw [hc] at hlen
            simp at hlen
          rw [show normStep (base ++ extra) s = (base ++ extra).dropLast from by
            unfold normStep; rw [if_neg h1, if_pos h2]]
          rw [show normStep extra s = extra.dropLast from by
            unfold normStep; rw [if_neg h1, if_pos h2]]
          rw [dropLast_append_ne base extra hextra]
          refine ih d' base extra.dropLast hok ?_
          rw [List.length_dropLast, hlen]
          omega
      · rw [if_neg h2] at hok
        rw [show normStep (base ++ extra) s = base ++ (extra ++ [s]) from by
          unfold normStep; rw [if_neg h1, if_neg h2, List.append_assoc]]
        rw [show normStep extra s = extra ++ [s] from by
          unfold normStep; rw [if_neg h1, if_neg h2]]
        refine ih (d + 1) base (extra ++ [s]) hok ?_
        rw [List.length_append, hlen]
        rfl

theorem foldl_normStep_wf :
    ∀ (cwd : List String) (acc : List String), wfCwd cwd = true →
      cwd.foldl normStep acc = acc ++ cwd := by
  intro cwd
  induction cwd with
  | nil =>
    intro acc _
    simp
  | cons s rest ih =>
    intro acc h
    unfold wfCwd at h
    rw [List.all_cons, Bool.and_eq_true] at h
    obtain ⟨hs, hrest⟩ := h
    unfold wfSeg at hs
    rw [Bool.and_eq_true, Bool.and_eq_true, Bool.and_eq_true] at hs
    obtain ⟨⟨⟨h1, h2⟩, h3⟩, -⟩ := hs
    rw [List.foldl_cons]
    have hstep : normStep acc s = acc ++ [s] := by
      unfold normStep
      rw [if_neg, if_neg]
      · exact bne_iff_ne.mp h3
      · rintro (hc | hc)
        · exact (bne_iff_ne.mp h1) hc
        · exact (bne_iff_ne.mp h2) hc
    rw [hstep, ih (acc ++ [s]) hrest, List.append_assoc, List.singleton_append]

theorem commonPrefixLen_self_append (cwd t : List String) :
    commonPrefixLen cwd (cwd ++ t) = cwd.length := by
  induction cwd with
  | nil =>
    cases t with
    | nil => rfl
    | cons a as => rfl
  | cons a as ih =>
    rw [List.cons_append]
    unfold commonPrefixLen
    rw [if_pos rfl, ih]
    rfl

theorem drop_len_append (cwd t : List String) : (cwd ++ t).drop cwd.length = t := by
  induction cwd with
  | nil => rfl
  | cons a as ih =>
    rw [List.cons_append, List.length_cons, List.drop_succ_cons]
    exact ih

/-- The relative link resolves independently of where the working root sits in
the filesystem: the result is the normalized join of the link against the
directory of its source file, expressed root-relatively. -/
theorem resolveLink_eq_join (cwd : List String) (filename url : String)
    (hwf : wfCwd cwd = true)
    (hd : pathAbs (dirname filename) = false) (hu : pathAbs url = false)
    (hok : relDepthOk (splitPath (dirname filename) ++ splitPath url) 0 = true) :
    resolveLink cwd filename url =
      joinPath (normalizeAbs (splitPath (dirname filename) ++ splitPath url)) := by
  unfold resolveLink resolveFull pathResolve
  have hfold : ([dirname filename, url].foldl
      (fun acc p => if pathAbs p then splitPath p else acc ++ splitPath p) cwd) =
      cwd ++ (splitPath (dirname filename) ++ splitPath url) := by
    rw [List.foldl_cons, List.foldl_cons, List.foldl_nil]
    rw [hd, hu]
    simp only [Bool.false_eq_true, if_false, List.append_assoc]
  rw [hfold]
  unfold normalizeAbs
  rw [List.foldl_append, foldl_normStep_wf cwd [] hwf, List.nil_append]
  have hshift := foldl_normStep_shift (splitPath (dirname filename) ++ splitPath url)
    0 cwd [] hok rfl
  rw [List.append_nil] at hshift
  rw [hshift]
  unfold pathRelative
  rw [commonPrefixLen_self_append, Nat.sub_self, drop_len_append]
  rfl

/-- **C7.** A relative link's resolved path is the join of the link against
the directory of the file it was found in, expressed relative to the working
root: the rendered form never starts with `/` (never absolute-filesystem
form), for `./`- and `../`-links it does not depend on where the working root
sits, and in particular `../docs/guide.md` found in `src/app.js` resolves to
`docs/guide.md`. -/
theorem c7_resolution_root_relative (cwd : List String) (filename url : String)
    (hwf : wfCwd cwd = true) :
    pathAbs (resolveLink cwd filename url) = false ∧
    (pathAbs (dirname filename) = false → pathAbs url = false →
      relDepthOk (splitPath (dirname filename) ++ splitPath url) 0 = true →
      resolveLink cwd filename url =
        joinPath (normalizeAbs (splitPath (dirname filename) ++ splitPath url))) ∧
    resolveLink cwd "src/app.js" "../docs/guide.md" = "docs/guide.md" := by
  refine ⟨resolveLink_not_abs cwd filename url hwf,
    fun hd hu hok => resolveLink_eq_join cwd filename url hwf hd hu hok, ?_⟩
  rw [resolveLink_eq_join cwd "src/app.js" "../docs/guide.md" hwf (by decide) (by decide)
    (by decide)]
  decide

theorem c7_resolution_root_relative_witness :
    pathAbs (resolveLink ["home", "runner", "work", "repo", "repo"]
      "src/app.js" "../docs/guide.md") = false ∧
    (pathAbs (dirname "src/app.js") = false → pathAbs "../docs/guide.md" = false →
      relDepthOk (splitPath (dirname "src/app.js") ++ splitPath "../docs/guide.md") 0 = true →
      resolveLink ["home", "runner", "work", "repo", "repo"] "src/app.js" "../docs/guide.md" =
        joinPath (normalizeAbs (splitPath (dirname "src/app.js") ++
          splitPath "../docs/guide.md"))) ∧
    resolveLink ["home", "runner", "work", "repo", "repo"] "src/app.js" "../docs/guide.md" =
      "docs/guide.md" :=
  c7_resolution_root_relative ["home", "runner", "work", "repo", "repo"]
    "src/app.js" "../docs/guide.md" (by decide)

/-! ## The extractor emits its own delimiter as a link (C8) -/

/-- **C8 (failing input).** The comment body `foo // bar` — as produced, for
instance, by the hash comment `# foo // bar` — makes `extractLinks` of
`check-links.ts` emit the bare token `//` as a Relative link: the
delimiter-stripping only removes a leading `//`, so an interior `//` matches
`RELATIVE_PATH_PATTERN` (`/` followed by the non-delimiter `/`).  This
contradicts the guard the specification requires. -/
theorem c8_bare_delimiter_emitted :
    extractLinks [("foo // bar".toList)] = [("//".toList)] ∧
    parseFilesForLinks (fun _ => some "# foo // bar") ["src/app.py"] =
      [⟨"src/app.py", [⟨"//", LinkType.relative⟩]⟩] := by
  constructor
  · decide
  · decide

/-! ## Single-occurrence replacement and the empty-section sentinel (C9) -/

theorem replaceFirst_go_eq {pat rep : List Char} (hne : pat ≠ []) :
    ∀ s : List Char, replaceFirst s pat rep = replaceFirst.go pat rep s := by
  intro s
  unfold replaceFirst
  rw [if_neg (by simpa using hne)]

theorem replaceFirst_spec (s pat rep : List Char) (hne : pat ≠ []) :
    (occursIn pat s = false ∧ replaceFirst s pat rep = s) ∨
    (∃ a b, s = a ++ pat ++ b ∧ replaceFirst s pat rep = a ++ rep ++ b ∧
      (∀ a' b', s = a' ++ pat ++ b' → a.length ≤ a'.length)) := by
  induction s with
  | nil =>
    left
    refine ⟨?_, ?_⟩
    · unfold occursIn
      simpa using hne
    · rw [replaceFirst_go_eq hne]
      rfl
  | cons c rest ih =>
    by_cases hlead : leadsWith pat (c :: rest) = true
    · right
      refine ⟨[], (c :: rest).drop pat.length, ?_, ?_, fun a' b' _ => Nat.zero_le _⟩
      · have htake : (c :: rest).take pat.length = pat := by
          have := hlead
          unfold leadsWith at this
          exact beq_iff_eq.mp this
        have hsplit2 : c :: rest = pat ++ (c :: rest).drop pat.length := by
          conv_lhs => rw [← List.take_append_drop pat.length (c :: rest)]
          rw [htake]
        rw [List.nil_append]
        exact hsplit2
      · rw [replaceFirst_go_eq hne]
        unfold replaceFirst.go
        rw [if_pos hlead]
        rfl
    · have hgo : replaceFirst (c :: rest) pat rep = c :: replaceFirst rest pat rep := by
        rw [replaceFirst_go_eq hne, replaceFirst_go_eq hne]
        simp only [replaceFirst.go]
        rw [if_neg hlead]
      rcases ih with ⟨hocc, heq⟩ | ⟨a, b, hsplit, heq, hmin⟩
      · left
        refine ⟨?_, by rw [hgo, heq]⟩
        unfold occursIn
        rw [Bool.or_eq_false_iff]
        exact ⟨by simpa using hlead, hocc⟩
      · right
        refine ⟨c :: a, b, by rw [hsplit]; rfl, by rw [hgo, heq]; rfl, ?_⟩
        intro a' b' hsp
        cases a' with
        | nil =>
          exfalso
          apply hlead
          rw [List.nil_append] at hsp
          rw [hsp]
          exact leadsWith_append pat b'
        | cons c' a'' =>
          rw [List.cons_append, List.cons_append] at hsp
          injection hsp with h1 h2
          have := hmin a'' b' h2
          exact Nat.succ_le_succ this

theorem toList_ne_nil {p : String} (h : p ≠ "") : p.toList ≠ [] := by
  intro hc
  apply h
  cases p with
  | mk data => exact congrArg String.mk hc

theorem replaceFirstS_spec (s pat rep : String) (hne : pat ≠ "") :
    (occursIn pat.toList s.toList = false ∧ replaceFirstS s pat rep = s) ∨
    (∃ a b, s.toList = a ++ pat.toList ++ b ∧
      (replaceFirstS s pat rep).toList = a ++ rep.toList ++ b ∧
      (∀ a' b', s.toList = a' ++ pat.toList ++ b' → a.length ≤ a'.length)) := by
  rcases replaceFirst_spec s.toList pat.toList rep.toList (toList_ne_nil hne) with
    ⟨hocc, heq⟩ | ⟨a, b, h1, h2, h3⟩
  · left
    refine ⟨hocc, ?_⟩
    unfold replaceFirstS
    rw [heq]
    rfl
  · right
    refine ⟨a, b, h1, ?_, h3⟩
    unfold replaceFirstS
    exact h2

theorem sectionStep_fst_of_valid (owner repo sha : String) (acc : String × String)
    (result : FileResultV) (h : ∀ l ∈ result.links, l.status.valid = true) :
    (sectionStep owner repo sha acc result).1 = acc.1 := by
  unfold sectionStep
  have hfilter : result.links.filter (fun l => l.status.valid = false) = [] := by
    rw [List.filter_eq_nil_iff]
    intro l hl
    rw [h l hl]
    simp
  dsimp only
  rw [hfilter]
  rfl

theorem buildLinkSections_fst_empty (owner repo sha : String)
    (results : List FileResultV)
    (h : ∀ r ∈ results, ∀ l ∈ r.links, l.status.valid = true) :
    (buildLinkSections owner repo sha results).1 = "" := by
  unfold buildLinkSections
  suffices haux : ∀ (rs : List FileResultV) (acc : String × String),
      (∀ r ∈ rs, ∀ l ∈ r.links, l.status.valid = true) →
      (rs.foldl (sectionStep owner repo sha) acc).1 = acc.1 by
    exact haux results ("", "") h
  intro rs
  induction rs with
  | nil =>
    intro acc _
    rfl
  | cons r rest ih =>
    intro acc hall
    rw [List.foldl_cons]
    rw [ih (sectionStep owner repo sha acc r) (fun x hx => hall x (List.mem_cons_of_mem r hx))]
    exact sectionStep_fst_of_valid owner repo sha acc r (hall r (List.mem_cons_self r rest))

/-- **C9 counterexample.** The unified composer of `check-links.ts`
(`executeTemplate`) does not substitute a "none" sentinel: in the `NoLinks`
render — the render whose backing link list is empty — `{{LINKS}}` is
replaced by `linksOutput ?? ""`, the empty string, so the template
`Links: {{LINKS}}.` renders as `Links: .` with no human-readable text in
place of the placeholder. -/
theorem c9_empty_links_no_sentinel :
    executeTemplate (fun _ => some "Links: \x7b\x7bLINKS\x7d\x7d.")
      Template.noLinks none none = some "Links: ." ∧
    replaceFirstS "Links: \x7b\x7bLINKS\x7d\x7d." "\x7b\x7bLINKS\x7d\x7d" "" =
      "Links: ." := by
  refine ⟨by decide, by decide⟩

/-- **C9 (amended).** An empty backing list never leaves a placeholder
unexpanded, but only the legacy split renderer inserts human-readable
sentinels: the unified composer of `check-links.ts` substitutes the empty
string for `{{LINKS}}` when no links output is supplied (the `NoLinks`
render), while the legacy `postCommentFromTemplate` substitutes
`No broken links found. ✅` / `No additional links to review.` for empty
broken/valid sections; in both composers every placeholder substitution
(`String.replace` with a plain string pattern) rewrites at most one
occurrence — the leftmost one. -/
theorem c9_sentinel_and_single_replacement (loadTemplate : Template → Option String)
    (owner repo sha template : String) (results : List FileResultV)
    (h : ∀ r ∈ results, ∀ l ∈ r.links, l.status.valid = true) :
    (∀ tm t, loadTemplate t = some tm →
      executeTemplate loadTemplate t none none =
        some (replaceFirstS (replaceFirstS tm "\x7b\x7bLINK_COUNT\x7d\x7d" "0")
          "\x7b\x7bLINKS\x7d\x7d" "")) ∧
    renderSplitTemplate owner repo sha template results =
      replaceFirstS
        (replaceFirstS
          (replaceFirstS template "\x7b\x7bLINK_COUNT\x7d\x7d"
            (toString (results.foldl (fun sum r => sum + r.links.length) 0)))
          "\x7b\x7bBROKEN_LINKS\x7d\x7d" BROKEN_SENTINEL)
        "\x7b\x7bVALID_LINKS\x7d\x7d"
        (if (buildLinkSections owner repo sha results).2 = "" then VALID_SENTINEL
         else (buildLinkSections owner repo sha results).2) ∧
    (∀ s pat rep : String, pat ≠ "" →
      (occursIn pat.toList s.toList = false ∧ replaceFirstS s pat rep = s) ∨
      (∃ a b, s.toList = a ++ pat.toList ++ b ∧
        (replaceFirstS s pat rep).toList = a ++ rep.toList ++ b ∧
        (∀ a' b', s.toList = a' ++ pat.toList ++ b' → a.length ≤ a'.length))) := by
  refine ⟨?_, ?_, fun s pat rep hne => replaceFirstS_spec s pat rep hne⟩
  · intro tm t htm
    unfold executeTemplate
    rw [htm]
    rfl
  · unfold renderSplitTemplate
    dsimp only
    rw [if_pos (buildLinkSections_fst_empty owner repo sha results h)]

theorem c9_sentinel_and_single_replacement_witness :
    (∀ tm t, (fun (_ : Template) =>
        some "Report: \x7b\x7bLINK_COUNT\x7d\x7d links. \x7b\x7bLINKS\x7d\x7d") t = some tm →
      executeTemplate (fun _ =>
          some "Report: \x7b\x7bLINK_COUNT\x7d\x7d links. \x7b\x7bLINKS\x7d\x7d") t none none =
        some (replaceFirstS (replaceFirstS tm "\x7b\x7bLINK_COUNT\x7d\x7d" "0")
          "\x7b\x7bLINKS\x7d\x7d" "")) ∧
    renderSplitTemplate "o" "r" "s"
      "Report: \x7b\x7bLINK_COUNT\x7d\x7d links. \x7b\x7bBROKEN_LINKS\x7d\x7d \x7b\x7bVALID_LINKS\x7d\x7d"
      [⟨"src/app.js", [⟨"./docs/guide.md", .relative,
        ⟨true, some "File exists", none, some "docs/guide.md"⟩⟩]⟩] =
      replaceFirstS
        (replaceFirstS
          (replaceFirstS
            "Report: \x7b\x7bLINK_COUNT\x7d\x7d links. \x7b\x7bBROKEN_LINKS\x7d\x7d \x7b\x7bVALID_LINKS\x7d\x7d"
            "\x7b\x7bLINK_COUNT\x7d\x7d"
            (toString ([(⟨"src/app.js", [⟨"./docs/guide.md", LinkType.relative,
              ⟨true, some "File exists", none, some "docs/guide.md"⟩⟩]⟩ : FileResultV)].foldl
                (fun sum r => sum + r.links.length) 0)))
          "\x7b\x7bBROKEN_LINKS\x7d\x7d" BROKEN_SENTINEL)
        "\x7b\x7bVALID_LINKS\x7d\x7d"
        (if (buildLinkSections "o" "r" "s"
            [⟨"src/app.js", [⟨"./docs/guide.md", .relative,
              ⟨true, some "File exists", none, some "docs/guide.md"⟩⟩]⟩]).2 = ""
          then VALID_SENTINEL
          else (buildLinkSections "o" "r" "s"
            [⟨"src/app.js", [⟨"./docs/guide.md", .relative,
              ⟨true, some "File exists", none, some "docs/guide.md"⟩⟩]⟩]).2) ∧
    (∀ s pat rep : String, pat ≠ "" →
      (occursIn pat.toList s.toList = false ∧ replaceFirstS s pat rep = s) ∨
      (∃ a b, s.toList = a ++ pat.toList ++ b ∧
        (replaceFirstS s pat rep).toList = a ++ rep.toList ++ b ∧
        (∀ a' b', s.toList = a' ++ pat.toList ++ b' → a.length ≤ a'.length))) :=
  c9_sentinel_and_single_replacement
    (fun _ => some "Report: \x7b\x7bLINK_COUNT\x7d\x7d links. \x7b\x7bLINKS\x7d\x7d")
    "o" "r" "s"
    "Report: \x7b\x7bLINK_COUNT\x7d\x7d links. \x7b\x7bBROKEN_LINKS\x7d\x7d \x7b\x7bVALID_LINKS\x7d\x7d"
    [⟨"src/app.js", [⟨"./docs/guide.md", .relative,
      ⟨true, some "File exists", none, some "docs/guide.md"⟩⟩]⟩]
    (by decide)

end DocWatch
